import Mathlib

/-!
# MPMCQueue: a bounded multi-producer multi-consumer queue

Shallow embedding of `include/MPMCQueue.h`.

Every public member function takes `m_mutex` before it reads or writes
`m_closed` or `m_queue`, and keeps it until its last access, so each call
is one atomic step on the protected state.  A blocking call evaluates its
wait predicate with the mutex held; when the predicate is false the caller
is suspended and the state is left as it was, which is rendered here by
the result `none`.  When the predicate is true the rest of the body runs
in the same critical section.

`size_t` values are natural numbers: the only arithmetic on them is the
comparison of `m_queue.size()` with `m_MaxCapacity`, which cannot wrap.
-/

/-- Protected state of `MPMCQueue<T>`: the members `m_closed`,
`m_MaxCapacity` and `m_queue` (front of the deque = head of the list).
The mutex and the two condition variables carry no data. -/
structure MPMCQueue (T : Type) where
  m_closed : Bool
  m_MaxCapacity : Nat
  m_queue : List T
deriving DecidableEq, Repr

/-- Notification sent to a condition variable by a call: none,
`notify_one` or `notify_all`. -/
inductive Wake where
  | nobody
  | one
  | all
deriving DecidableEq, Repr

/-- Outcome of a returning insertion (`push`, `push_for`, `try_push`).
`element` is the caller's argument object after the call, `none` standing
for a moved-from object.  `inserted` records whether the `emplace_back`
statement was executed.  `wake_not_empty` is the notification sent to
`m_cv_not_empty`. -/
structure PushOutcome (T : Type) where
  queue : MPMCQueue T
  element : Option T
  inserted : Bool
  wake_not_empty : Wake
deriving DecidableEq, Repr

/-- Outcome of a returning removal (`pop`, `try_pop`).  `element` is the
caller's output variable after the call.  `removed` records whether the
`pop_front` statement was executed.  `wake_not_full` is the notification
sent to `m_cv_not_full`. -/
structure PopOutcome (T : Type) where
  queue : MPMCQueue T
  element : T
  removed : Bool
  wake_not_full : Wake
deriving DecidableEq, Repr

/-- Outcome of `close`: the new state and the notifications sent to the
two condition variables. -/
structure CloseOutcome (T : Type) where
  queue : MPMCQueue T
  wake_not_full : Wake
  wake_not_empty : Wake
deriving DecidableEq, Repr

namespace MPMCQueue

variable {T : Type}

/-- Constructor `MPMCQueue(size_t size_capacity)`: `m_closed` is
default-initialised to `false` and `m_queue` to the empty deque. -/
def new (size_capacity : Nat) : MPMCQueue T :=
  { m_closed := false, m_MaxCapacity := size_capacity, m_queue := [] }

/-- Wait predicate of `m_cv_not_full` in `push` and `push_for`:
`m_closed || m_queue.size() < m_MaxCapacity`. -/
def not_full_pred (q : MPMCQueue T) : Bool :=
  q.m_closed || decide (q.m_queue.length < q.m_MaxCapacity)

/-- Wait predicate of `m_cv_not_empty` in `pop`:
`m_closed || !m_queue.empty()`. -/
def not_empty_pred (q : MPMCQueue T) : Bool :=
  q.m_closed || !q.m_queue.isEmpty

/-- Blocking insertion `void push(const T& element)`.  `none`: the caller
stays in `m_cv_not_full.wait`. -/
def push (q : MPMCQueue T) (element : T) : Option (PushOutcome T) :=
  if !q.not_full_pred then none
  else if q.m_closed then
    some { queue := q, element := some element, inserted := false, wake_not_empty := Wake.nobody }
  else
    some { queue := { q with m_queue := q.m_queue ++ [element] },
           element := some element, inserted := true, wake_not_empty := Wake.one }

/-- Blocking insertion `void push(T&& element)`: as `push`, but the
argument is moved into the deque. -/
def push_move (q : MPMCQueue T) (element : T) : Option (PushOutcome T) :=
  if !q.not_full_pred then none
  else if q.m_closed then
    some { queue := q, element := some element, inserted := false, wake_not_empty := Wake.nobody }
  else
    some { queue := { q with m_queue := q.m_queue ++ [element] },
           element := none, inserted := true, wake_not_empty := Wake.one }

/-- Timed insertion `void push_for(const T& element, duration WaitTime)`.
`wait_for` returns the value of the predicate, either as soon as it holds
or once `WaitTime` has elapsed; `timed_out` says whether the time has
elapsed.  `none`: the caller is still waiting. -/
def push_for (q : MPMCQueue T) (element : T) (timed_out : Bool) : Option (PushOutcome T) :=
  if !q.not_full_pred then
    if timed_out then
      some { queue := q, element := some element, inserted := false, wake_not_empty := Wake.nobody }
    else none
  else if q.m_closed then
    some { queue := q, element := some element, inserted := false, wake_not_empty := Wake.nobody }
  else
    some { queue := { q with m_queue := q.m_queue ++ [element] },
           element := some element, inserted := true, wake_not_empty := Wake.one }

/-- Timed insertion `void push_for(T&& element, duration WaitTime)`. -/
def push_for_move (q : MPMCQueue T) (element : T) (timed_out : Bool) : Option (PushOutcome T) :=
  if !q.not_full_pred then
    if timed_out then
      some { queue := q, element := some element, inserted := false, wake_not_empty := Wake.nobody }
    else none
  else if q.m_closed then
    some { queue := q, element := some element, inserted := false, wake_not_empty := Wake.nobody }
  else
    some { queue := { q with m_queue := q.m_queue ++ [element] },
           element := none, inserted := true, wake_not_empty := Wake.one }

/-- Non-blocking insertion `bool try_push(const T& element)`: the returned
boolean and the outcome.  No condition variable is notified. -/
def try_push (q : MPMCQueue T) (element : T) : Bool × PushOutcome T :=
  if q.m_closed || decide (q.m_queue.length ≥ q.m_MaxCapacity) then
    (false, { queue := q, element := some element, inserted := false,
              wake_not_empty := Wake.nobody })
  else
    (true, { queue := { q with m_queue := q.m_queue ++ [element] },
             element := some element, inserted := true, wake_not_empty := Wake.nobody })

/-- Non-blocking insertion `bool try_push(T&& element)`. -/
def try_push_move (q : MPMCQueue T) (element : T) : Bool × PushOutcome T :=
  if q.m_closed || decide (q.m_queue.length ≥ q.m_MaxCapacity) then
    (false, { queue := q, element := some element, inserted := false,
              wake_not_empty := Wake.nobody })
  else
    (true, { queue := { q with m_queue := q.m_queue ++ [element] },
             element := none, inserted := true, wake_not_empty := Wake.nobody })

/-- Blocking removal `void pop(T& element)`.  `none`: the caller stays in
`m_cv_not_empty.wait`. -/
def pop (q : MPMCQueue T) (element : T) : Option (PopOutcome T) :=
  if !q.not_empty_pred then none
  else
    match q.m_queue with
    | [] => some { queue := q, element := element, removed := false, wake_not_full := Wake.nobody }
    | front :: rest =>
      some { queue := { q with m_queue := rest }, element := front, removed := true,
             wake_not_full := Wake.one }

/-- Non-blocking removal `bool try_pop(T& element)`: the returned boolean
and the outcome.  No condition variable is notified. -/
def try_pop (q : MPMCQueue T) (element : T) : Bool × PopOutcome T :=
  match q.m_queue with
  | [] => (false, { queue := q, element := element, removed := false,
                    wake_not_full := Wake.nobody })
  | front :: rest =>
    (true, { queue := { q with m_queue := rest }, element := front, removed := true,
             wake_not_full := Wake.nobody })

/-- Shutdown `void close()`: sets `m_closed` and notifies all waiters of
both condition variables. -/
def close (q : MPMCQueue T) : CloseOutcome T :=
  { queue := { q with m_closed := true }, wake_not_full := Wake.all, wake_not_empty := Wake.all }

/-- Accessor `size_t getMaxCapacity() const`. -/
def getMaxCapacity (q : MPMCQueue T) : Nat :=
  q.m_MaxCapacity

end MPMCQueue

/-- One call on the queue, with its arguments.  For `pop` and `try_pop`
the argument is the value the caller's output variable holds before the
call; for `push_for` the boolean says whether `WaitTime` elapses before
the wait predicate holds. -/
inductive Op (T : Type) where
  | push (element : T)
  | push_move (element : T)
  | push_for (element : T) (timed_out : Bool)
  | push_for_move (element : T) (timed_out : Bool)
  | try_push (element : T)
  | try_push_move (element : T)
  | pop (element : T)
  | try_pop (element : T)
  | close
deriving DecidableEq, Repr

namespace MPMCQueue

variable {T : Type}

/-- State after the returning insertion, or the unchanged state when the
caller was suspended. -/
def after_push (q : MPMCQueue T) : Option (PushOutcome T) → MPMCQueue T
  | some r => r.queue
  | none => q

/-- State after the returning removal, or the unchanged state when the
caller was suspended. -/
def after_pop (q : MPMCQueue T) : Option (PopOutcome T) → MPMCQueue T
  | some r => r.queue
  | none => q

/-- State after one atomic step of the given call.  A call that is
suspended leaves the state as it is; when it is woken it evaluates its
wait predicate again, which is a further step of the same call. -/
def step (q : MPMCQueue T) : Op T → MPMCQueue T
  | Op.push x => q.after_push (q.push x)
  | Op.push_move x => q.after_push (q.push_move x)
  | Op.push_for x t => q.after_push (q.push_for x t)
  | Op.push_for_move x t => q.after_push (q.push_for_move x t)
  | Op.try_push x => (q.try_push x).2.queue
  | Op.try_push_move x => (q.try_push_move x).2.queue
  | Op.pop out => q.after_pop (q.pop out)
  | Op.try_pop out => (q.try_pop out).2.queue
  | Op.close => q.close.queue

/-- Element appended by a returning insertion, if any. -/
def appended (x : T) : Option (PushOutcome T) → Option T
  | some r => if r.inserted then some x else none
  | none => none

/-- Element written to the output variable by a returning removal that
took the head of the deque, if any. -/
def taken : Option (PopOutcome T) → Option T
  | some r => if r.removed then some r.element else none
  | none => none

/-- Element accepted into the deque by one step: the argument of an
insertion that executed `emplace_back` (for `try_push`, one that returned
`true`). -/
def accepted (q : MPMCQueue T) : Op T → Option T
  | Op.push x => appended x (q.push x)
  | Op.push_move x => appended x (q.push_move x)
  | Op.push_for x t => appended x (q.push_for x t)
  | Op.push_for_move x t => appended x (q.push_for_move x t)
  | Op.try_push x => if (q.try_push x).1 then some x else none
  | Op.try_push_move x => if (q.try_push_move x).1 then some x else none
  | _ => none

/-- Element handed to the caller by one step: the value left in the
output variable by a `pop` that executed `pop_front`, or by a `try_pop`
that returned `true`. -/
def handed (q : MPMCQueue T) : Op T → Option T
  | Op.pop out => taken (q.pop out)
  | Op.try_pop out => if (q.try_pop out).1 then some (q.try_pop out).2.element else none
  | _ => none

/-- Boolean returned by one step, for the calls that return one. -/
def returned (q : MPMCQueue T) : Op T → Option Bool
  | Op.try_push x => some (q.try_push x).1
  | Op.try_push_move x => some (q.try_push_move x).1
  | Op.try_pop out => some (q.try_pop out).1
  | _ => none

/-- State after a finite sequence of steps, in the order in which the
mutex serialises them. -/
def run (q : MPMCQueue T) : List (Op T) → MPMCQueue T
  | [] => q
  | op :: ops => run (q.step op) ops

/-- Observation `f` of every step of a sequence, each taken in the state
in which that step starts. -/
def log {α : Type} (f : MPMCQueue T → Op T → α) (q : MPMCQueue T) : List (Op T) → List α
  | [] => []
  | op :: ops => f q op :: log f (q.step op) ops

/-- Elements accepted by the successful insertions of a sequence, in
order. -/
def accepted_by (q : MPMCQueue T) (ops : List (Op T)) : List T :=
  (log accepted q ops).reduceOption

/-- Elements handed out by the successful removals of a sequence, in
order. -/
def handed_by (q : MPMCQueue T) (ops : List (Op T)) : List T :=
  (log handed q ops).reduceOption

end MPMCQueue

/-- Element a call tries to insert: the argument of any of the six
insertion overloads, `none` for the other calls. -/
def Op.inserting {T : Type} : Op T → Option T
  | Op.push x => some x
  | Op.push_move x => some x
  | Op.push_for x _ => some x
  | Op.push_for_move x _ => some x
  | Op.try_push x => some x
  | Op.try_push_move x => some x
  | _ => none

/-- Whether a call is a removal (`pop` or `try_pop`). -/
def Op.removing {T : Type} : Op T → Bool
  | Op.pop _ => true
  | Op.try_pop _ => true
  | _ => false

/-- Number of threads released by a notification sent while `waiting`
threads are blocked on the condition variable, as `std::condition_variable`
specifies it: `notify_one` unblocks one of the blocked threads if there is
one, `notify_all` unblocks all of them, and no notification unblocks none. -/
def Wake.wakes : Wake → Nat → Nat
  | Wake.nobody, _ => 0
  | Wake.one, waiting => min 1 waiting
  | Wake.all, waiting => waiting

/-- Outcome of `operator<<` on a queue: the text on the stream after the
call and the queue, which the operator receives by const reference. -/
structure PrintOutcome (T : Type) where
  out : String
  queue : MPMCQueue T

namespace MPMCQueue

variable {T : Type}

/-- Whether one step of the given call leaves the caller suspended in a
wait.  `try_push`, `try_pop` and `close` contain no wait. -/
def suspends (q : MPMCQueue T) : Op T → Bool
  | Op.push x => (q.push x).isNone
  | Op.push_move x => (q.push_move x).isNone
  | Op.push_for x t => (q.push_for x t).isNone
  | Op.push_for_move x t => (q.push_for_move x t).isNone
  | Op.pop out => (q.pop out).isNone
  | _ => false

/-- Stream output `operator<<(std::ostream& out, const MPMCQueue& q)`.
The stream is the text written to it so far, and `fmt` is the printed
form `out << e` of an element, which the element type supplies.  The
deque is copied into `snapshot` under the mutex; the loop over the
indices `0 .. snapshot.size() - 2` visits the elements before the last. -/
def operator_lshift (fmt : T → String) (out : String) (q : MPMCQueue T) : PrintOutcome T :=
  let snapshot := q.m_queue
  match snapshot with
  | [] => { out := out ++ "[]\n", queue := q }
  | first :: rest =>
    let opened := out ++ "["
    let looped := ((first :: rest).take ((first :: rest).length - 1)).foldl
      (fun o e => o ++ fmt e ++ ",") opened
    { out := looped ++ fmt ((first :: rest).getLast (List.cons_ne_nil first rest)) ++ "]\n",
      queue := q }

/-- Printed forms of the elements separated by single commas, with no
comma after the last one: the text the specification puts between the
brackets. -/
def comma_separated (fmt : T → String) : List T → String
  | [] => ""
  | [e] => fmt e
  | e :: next :: es => fmt e ++ "," ++ comma_separated fmt (next :: es)

end MPMCQueue

namespace MPMCQueue

variable {T : Type}

/-! ## The three regimes of an insertion and of a removal -/

theorem push_closed (q : MPMCQueue T) (x : T) (hc : q.m_closed = true) :
    q.push x = some { queue := q, element := some x, inserted := false,
                      wake_not_empty := Wake.nobody } := by
  simp [push, not_full_pred, hc]

theorem push_room (q : MPMCQueue T) (x : T) (hc : q.m_closed = false)
    (hlt : q.m_queue.length < q.m_MaxCapacity) :
    q.push x = some { queue := { q with m_queue := q.m_queue ++ [x] }, element := some x,
                      inserted := true, wake_not_empty := Wake.one } := by
  simp [push, not_full_pred, hc, hlt]

theorem push_full (q : MPMCQueue T) (x : T) (hc : q.m_closed = false)
    (hge : q.m_MaxCapacity ≤ q.m_queue.length) : q.push x = none := by
  simp [push, not_full_pred, hc, Nat.not_lt.mpr hge]

theorem push_move_closed (q : MPMCQueue T) (x : T) (hc : q.m_closed = true) :
    q.push_move x = some { queue := q, element := some x, inserted := false,
                           wake_not_empty := Wake.nobody } := by
  simp [push_move, not_full_pred, hc]

theorem push_move_room (q : MPMCQueue T) (x : T) (hc : q.m_closed = false)
    (hlt : q.m_queue.length < q.m_MaxCapacity) :
    q.push_move x = some { queue := { q with m_queue := q.m_queue ++ [x] }, element := none,
                           inserted := true, wake_not_empty := Wake.one } := by
  simp [push_move, not_full_pred, hc, hlt]

theorem push_move_full (q : MPMCQueue T) (x : T) (hc : q.m_closed = false)
    (hge : q.m_MaxCapacity ≤ q.m_queue.length) : q.push_move x = none := by
  simp [push_move, not_full_pred, hc, Nat.not_lt.mpr hge]

theorem push_for_closed (q : MPMCQueue T) (x : T) (t : Bool) (hc : q.m_closed = true) :
    q.push_for x t = some { queue := q, element := some x, inserted := false,
                            wake_not_empty := Wake.nobody } := by
  simp [push_for, not_full_pred, hc]

theorem push_for_room (q : MPMCQueue T) (x : T) (t : Bool) (hc : q.m_closed = false)
    (hlt : q.m_queue.length < q.m_MaxCapacity) :
    q.push_for x t = some { queue := { q with m_queue := q.m_queue ++ [x] }, element := some x,
                            inserted := true, wake_not_empty := Wake.one } := by
  simp [push_for, not_full_pred, hc, hlt]

theorem push_for_full_timeout (q : MPMCQueue T) (x : T) (hc : q.m_closed = false)
    (hge : q.m_MaxCapacity ≤ q.m_queue.length) :
    q.push_for x true = some { queue := q, element := some x, inserted := false,
                               wake_not_empty := Wake.nobody } := by
  simp [push_for, not_full_pred, hc, Nat.not_lt.mpr hge]

theorem push_for_full_waiting (q : MPMCQueue T) (x : T) (hc : q.m_closed = false)
    (hge : q.m_MaxCapacity ≤ q.m_queue.length) : q.push_for x false = none := by
  simp [push_for, not_full_pred, hc, Nat.not_lt.mpr hge]

theorem push_for_move_closed (q : MPMCQueue T) (x : T) (t : Bool) (hc : q.m_closed = true) :
    q.push_for_move x t = some { queue := q, element := some x, inserted := false,
                                 wake_not_empty := Wake.nobody } := by
  simp [push_for_move, not_full_pred, hc]

theorem push_for_move_room (q : MPMCQueue T) (x : T) (t : Bool) (hc : q.m_closed = false)
    (hlt : q.m_queue.length < q.m_MaxCapacity) :
    q.push_for_move x t = some { queue := { q with m_queue := q.m_queue ++ [x] },
                                 element := none, inserted := true,
                                 wake_not_empty := Wake.one } := by
  simp [push_for_move, not_full_pred, hc, hlt]

theorem push_for_move_full_timeout (q : MPMCQueue T) (x : T) (hc : q.m_closed = false)
    (hge : q.m_MaxCapacity ≤ q.m_queue.length) :
    q.push_for_move x true = some { queue := q, element := some x, inserted := false,
                                    wake_not_empty := Wake.nobody } := by
  simp [push_for_move, not_full_pred, hc, Nat.not_lt.mpr hge]

theorem push_for_move_full_waiting (q : MPMCQueue T) (x : T) (hc : q.m_closed = false)
    (hge : q.m_MaxCapacity ≤ q.m_queue.length) : q.push_for_move x false = none := by
  simp [push_for_move, not_full_pred, hc, Nat.not_lt.mpr hge]

theorem try_push_closed (q : MPMCQueue T) (x : T) (hc : q.m_closed = true) :
    q.try_push x = (false, { queue := q, element := some x, inserted := false,
                             wake_not_empty := Wake.nobody }) := by
  simp [try_push, hc]

theorem try_push_room (q : MPMCQueue T) (x : T) (hc : q.m_closed = false)
    (hlt : q.m_queue.length < q.m_MaxCapacity) :
    q.try_push x = (true, { queue := { q with m_queue := q.m_queue ++ [x] },
                            element := some x, inserted := true,
                            wake_not_empty := Wake.nobody }) := by
  simp [try_push, hc, Nat.not_le.mpr hlt]

theorem try_push_full (q : MPMCQueue T) (x : T)
    (hge : q.m_MaxCapacity ≤ q.m_queue.length) :
    q.try_push x = (false, { queue := q, element := some x, inserted := false,
                             wake_not_empty := Wake.nobody }) := by
  simp [try_push, hge]

theorem try_push_move_closed (q : MPMCQueue T) (x : T) (hc : q.m_closed = true) :
    q.try_push_move x = (false, { queue := q, element := some x, inserted := false,
                                  wake_not_empty := Wake.nobody }) := by
  simp [try_push_move, hc]

theorem try_push_move_room (q : MPMCQueue T) (x : T) (hc : q.m_closed = false)
    (hlt : q.m_queue.length < q.m_MaxCapacity) :
    q.try_push_move x = (true, { queue := { q with m_queue := q.m_queue ++ [x] },
                                 element := none, inserted := true,
                                 wake_not_empty := Wake.nobody }) := by
  simp [try_push_move, hc, Nat.not_le.mpr hlt]

theorem try_push_move_full (q : MPMCQueue T) (x : T)
    (hge : q.m_MaxCapacity ≤ q.m_queue.length) :
    q.try_push_move x = (false, { queue := q, element := some x, inserted := false,
                                  wake_not_empty := Wake.nobody }) := by
  simp [try_push_move, hge]

theorem pop_cons (q : MPMCQueue T) (out front : T) (rest : List T)
    (hq : q.m_queue = front :: rest) :
    q.pop out = some { queue := { q with m_queue := rest }, element := front,
                       removed := true, wake_not_full := Wake.one } := by
  simp [pop, not_empty_pred, hq]

theorem pop_nil_closed (q : MPMCQueue T) (out : T) (hq : q.m_queue = [])
    (hc : q.m_closed = true) :
    q.pop out = some { queue := q, element := out, removed := false,
                       wake_not_full := Wake.nobody } := by
  simp [pop, not_empty_pred, hq, hc]

theorem pop_nil_open (q : MPMCQueue T) (out : T) (hq : q.m_queue = [])
    (hc : q.m_closed = false) : q.pop out = none := by
  simp [pop, not_empty_pred, hq, hc]

theorem try_pop_cons (q : MPMCQueue T) (out front : T) (rest : List T)
    (hq : q.m_queue = front :: rest) :
    q.try_pop out = (true, { queue := { q with m_queue := rest }, element := front,
                             removed := true, wake_not_full := Wake.nobody }) := by
  simp [try_pop, hq]

theorem try_pop_nil (q : MPMCQueue T) (out : T) (hq : q.m_queue = []) :
    q.try_pop out = (false, { queue := q, element := out, removed := false,
                              wake_not_full := Wake.nobody }) := by
  simp [try_pop, hq]

/-! ## What a single step can do -/

/-- Every step is of one of four kinds: it leaves the state as it is, it
appends its argument to an open queue with room, it takes the head of a
non-empty deque, or it sets the closed flag. -/
theorem step_cases (q : MPMCQueue T) (op : Op T) :
    (q.step op = q ∧ q.accepted op = none ∧ q.handed op = none) ∨
    (∃ x, q.m_closed = false ∧ q.m_queue.length < q.m_MaxCapacity ∧
      q.step op = { q with m_queue := q.m_queue ++ [x] } ∧
      q.accepted op = some x ∧ q.handed op = none) ∨
    (∃ a rest, q.m_queue = a :: rest ∧ q.step op = { q with m_queue := rest } ∧
      q.accepted op = none ∧ q.handed op = some a) ∨
    (q.step op = { q with m_closed := true } ∧ q.accepted op = none ∧ q.handed op = none) := by
  have hcb : q.m_closed = true ∨ q.m_closed = false := by cases q.m_closed <;> simp
  have hlen : q.m_queue.length < q.m_MaxCapacity ∨ q.m_MaxCapacity ≤ q.m_queue.length :=
    Nat.lt_or_ge _ _
  cases op with
  | push x =>
    rcases hcb with hc | hc
    · left; simp [step, accepted, handed, after_push, appended, push_closed q x hc]
    · rcases hlen with hlt | hge
      · right; left
        exact ⟨x, hc, hlt, by simp [step, accepted, handed, after_push, appended,
          push_room q x hc hlt]⟩
      · left; simp [step, accepted, handed, after_push, appended, push_full q x hc hge]
  | push_move x =>
    rcases hcb with hc | hc
    · left; simp [step, accepted, handed, after_push, appended, push_move_closed q x hc]
    · rcases hlen with hlt | hge
      · right; left
        exact ⟨x, hc, hlt, by simp [step, accepted, handed, after_push, appended,
          push_move_room q x hc hlt]⟩
      · left; simp [step, accepted, handed, after_push, appended, push_move_full q x hc hge]
  | push_for x t =>
    rcases hcb with hc | hc
    · left; simp [step, accepted, handed, after_push, appended, push_for_closed q x t hc]
    · rcases hlen with hlt | hge
      · right; left
        exact ⟨x, hc, hlt, by simp [step, accepted, handed, after_push, appended,
          push_for_room q x t hc hlt]⟩
      · left
        cases t
        · simp [step, accepted, handed, after_push, appended, push_for_full_waiting q x hc hge]
        · simp [step, accepted, handed, after_push, appended, push_for_full_timeout q x hc hge]
  | push_for_move x t =>
    rcases hcb with hc | hc
    · left; simp [step, accepted, handed, after_push, appended, push_for_move_closed q x t hc]
    · rcases hlen with hlt | hge
      · right; left
        exact ⟨x, hc, hlt, by simp [step, accepted, handed, after_push, appended,
          push_for_move_room q x t hc hlt]⟩
      · left
        cases t
        · simp [step, accepted, handed, after_push, appended,
            push_for_move_full_waiting q x hc hge]
        · simp [step, accepted, handed, after_push, appended,
            push_for_move_full_timeout q x hc hge]
  | try_push x =>
    rcases hcb with hc | hc
    · left; simp [step, accepted, handed, try_push_closed q x hc]
    · rcases hlen with hlt | hge
      · right; left
        exact ⟨x, hc, hlt, by simp [step, accepted, handed, try_push_room q x hc hlt]⟩
      · left; simp [step, accepted, handed, try_push_full q x hge]
  | try_push_move x =>
    rcases hcb with hc | hc
    · left; simp [step, accepted, handed, try_push_move_closed q x hc]
    · rcases hlen with hlt | hge
      · right; left
        exact ⟨x, hc, hlt, by simp [step, accepted, handed, try_push_move_room q x hc hlt]⟩
      · left; simp [step, accepted, handed, try_push_move_full q x hge]
  | pop out =>
    cases hq : q.m_queue with
    | nil =>
      left
      rcases hcb with hc | hc
      · simp [step, accepted, handed, after_pop, taken, pop_nil_closed q out hq hc]
      · simp [step, accepted, handed, after_pop, taken, pop_nil_open q out hq hc]
    | cons a rest =>
      right; right; left
      exact ⟨a, rest, rfl, by simp [step, accepted, handed, after_pop, taken,
        pop_cons q out a rest hq]⟩
  | try_pop out =>
    cases hq : q.m_queue with
    | nil => left; simp [step, accepted, handed, try_pop_nil q out hq]
    | cons a rest =>
      right; right; left
      exact ⟨a, rest, rfl, by simp [step, accepted, handed, try_pop_cons q out a rest hq]⟩
  | close => right; right; right; simp [step, accepted, handed, close]

theorem step_capacity (q : MPMCQueue T) (op : Op T) :
    (q.step op).m_MaxCapacity = q.m_MaxCapacity := by
  rcases step_cases q op with ⟨h, -, -⟩ | ⟨x, -, -, h, -, -⟩ | ⟨a, rest, -, h, -, -⟩ | ⟨h, -, -⟩ <;>
    rw [h]

theorem step_length_le (q : MPMCQueue T) (op : Op T)
    (hinv : q.m_queue.length ≤ q.m_MaxCapacity) :
    (q.step op).m_queue.length ≤ q.m_MaxCapacity := by
  rcases step_cases q op with ⟨h, -, -⟩ | ⟨x, -, hlt, h, -, -⟩ | ⟨a, rest, hq, h, -, -⟩ | ⟨h, -, -⟩
  · rw [h]; exact hinv
  · rw [h]; simp only [List.length_append, List.length_singleton]; omega
  · rw [h]; rw [hq] at hinv; simp only [List.length_cons] at hinv; simp only; omega
  · rw [h]; exact hinv

/-- One step neither loses nor invents an element: what it hands out,
followed by the deque it leaves, is the deque it found followed by what
it accepted. -/
theorem step_conservation (q : MPMCQueue T) (op : Op T) :
    (q.handed op).toList ++ (q.step op).m_queue = q.m_queue ++ (q.accepted op).toList := by
  rcases step_cases q op with ⟨h, ha, hh⟩ | ⟨x, -, -, h, ha, hh⟩ | ⟨a, rest, hq, h, ha, hh⟩ |
      ⟨h, ha, hh⟩ <;>
    simp [h, ha, hh, *]

theorem run_capacity (q : MPMCQueue T) (ops : List (Op T)) :
    (q.run ops).m_MaxCapacity = q.m_MaxCapacity := by
  induction ops generalizing q with
  | nil => rfl
  | cons op ops ih => rw [run, ih, step_capacity]

theorem run_length_le (q : MPMCQueue T) (ops : List (Op T))
    (hinv : q.m_queue.length ≤ q.m_MaxCapacity) :
    (q.run ops).m_queue.length ≤ q.m_MaxCapacity := by
  induction ops generalizing q with
  | nil => exact hinv
  | cons op ops ih =>
    rw [run]
    have h := ih (q.step op) (by rw [step_capacity]; exact step_length_le q op hinv)
    rwa [step_capacity] at h

theorem reduceOption_cons_toList {α : Type} (o : Option α) (l : List (Option α)) :
    (o :: l).reduceOption = o.toList ++ l.reduceOption := by
  cases o <;> simp [List.reduceOption_cons_of_some, List.reduceOption_cons_of_none]

/-- Conservation along a whole run, from any starting state. -/
theorem run_conservation (q : MPMCQueue T) (ops : List (Op T)) :
    q.handed_by ops ++ (q.run ops).m_queue = q.m_queue ++ q.accepted_by ops := by
  induction ops generalizing q with
  | nil => simp [handed_by, accepted_by, log, run]
  | cons op ops ih =>
    have h1 := ih (q.step op)
    have h2 := step_conservation q op
    simp only [handed_by, accepted_by, log, run, reduceOption_cons_toList] at h1 ⊢
    rw [List.append_assoc, h1, ← List.append_assoc, h2, List.append_assoc]

theorem log_append {α : Type} (f : MPMCQueue T → Op T → α) (q : MPMCQueue T)
    (ops more : List (Op T)) :
    log f q (ops ++ more) = log f q ops ++ log f (q.run ops) more := by
  induction ops generalizing q with
  | nil => rfl
  | cons op ops ih => simp [log, run, ih]

theorem run_append (q : MPMCQueue T) (ops more : List (Op T)) :
    q.run (ops ++ more) = (q.run ops).run more := by
  induction ops generalizing q with
  | nil => rfl
  | cons op ops ih => simp [run, ih]

/-- An insertion into an open queue with room appends its argument. -/
theorem step_of_inserting (q : MPMCQueue T) (op : Op T) (e : T)
    (hop : op.inserting = some e)
    (hc : q.m_closed = false) (hlt : q.m_queue.length < q.m_MaxCapacity) :
    q.step op = { q with m_queue := q.m_queue ++ [e] } ∧ q.accepted op = some e := by
  cases op <;> simp only [Op.inserting, Option.some.injEq] at hop
  case push x =>
    subst hop; simp [step, accepted, after_push, appended, push_room q x hc hlt]
  case push_move x =>
    subst hop; simp [step, accepted, after_push, appended, push_move_room q x hc hlt]
  case push_for x t =>
    subst hop; simp [step, accepted, after_push, appended, push_for_room q x t hc hlt]
  case push_for_move x t =>
    subst hop; simp [step, accepted, after_push, appended, push_for_move_room q x t hc hlt]
  case try_push x =>
    subst hop; simp [step, accepted, try_push_room q x hc hlt]
  case try_push_move x =>
    subst hop; simp [step, accepted, try_push_move_room q x hc hlt]
  all_goals cases hop

/-- A removal from a non-empty deque hands out its head. -/
theorem step_of_removing (q : MPMCQueue T) (op : Op T) (front : T) (rest : List T)
    (hop : op.removing = true) (hq : q.m_queue = front :: rest) :
    q.step op = { q with m_queue := rest } ∧ q.handed op = some front := by
  cases op <;> simp only [Op.removing] at hop
  case pop out => simp [step, handed, after_pop, taken, pop_cons q out front rest hq]
  case try_pop out => simp [step, handed, try_pop_cons q out front rest hq]
  all_goals cases hop

/-- Insertions of `es` into an open queue with room for all of them. -/
theorem run_of_inserting (es : List T) (ins : List (Op T)) (q : MPMCQueue T)
    (hins : ins.map Op.inserting = es.map some)
    (hc : q.m_closed = false) (hroom : q.m_queue.length + es.length ≤ q.m_MaxCapacity) :
    q.run ins = { q with m_queue := q.m_queue ++ es } ∧
    log accepted q ins = es.map some := by
  induction ins generalizing q es with
  | nil =>
    have : es = [] := by simpa using hins.symm
    subst this
    simp [run, log]
  | cons op ins ih =>
    cases es with
    | nil => simp at hins
    | cons e es =>
      simp only [List.map_cons, List.cons.injEq] at hins
      simp only [List.length_cons] at hroom
      obtain ⟨hs, ha⟩ := step_of_inserting q op e hins.1 hc (by omega)
      have h := ih es (q.step op) hins.2 (by rw [hs]; exact hc)
        (by rw [hs]; simp only [List.length_append, List.length_singleton]; omega)
      rw [run, log, h.1, h.2, ha, hs]
      simp

/-- As many removals as the deque holds elements. -/
theorem run_of_removing (es : List T) (rems : List (Op T)) (q : MPMCQueue T)
    (hrem : ∀ op ∈ rems, Op.removing op = true) (hq : q.m_queue = es)
    (hlen : rems.length = es.length) :
    q.run rems = { q with m_queue := [] } ∧ log handed q rems = es.map some := by
  induction rems generalizing q es with
  | nil =>
    have : es = [] := List.length_eq_zero.mp hlen.symm
    subst this
    simp [run, log, ← hq]
  | cons op rems ih =>
    cases es with
    | nil => simp at hlen
    | cons e es =>
      obtain ⟨hs, hh⟩ := step_of_removing q op e es (hrem op (List.mem_cons_self _ _)) hq
      have h := ih es (q.step op) (fun o ho => hrem o (List.mem_cons_of_mem _ ho))
        (by rw [hs]) (by simpa using hlen)
      rw [run, log, h.1, h.2, hh, hs]
      simp

/-- A closed queue stays closed, and a step on it either leaves the state
as it is or drops the head of the deque; it accepts nothing. -/
theorem step_of_closed (q : MPMCQueue T) (op : Op T) (hc : q.m_closed = true) :
    (q.step op).m_closed = true ∧ q.accepted op = none ∧
    (q.step op = q ∨ ∃ front rest, q.m_queue = front :: rest ∧
      q.step op = { q with m_queue := rest }) := by
  rcases step_cases q op with ⟨h, ha, -⟩ | ⟨x, ho, -, -, -, -⟩ | ⟨a, rest, hq, h, ha, -⟩ |
      ⟨h, ha, -⟩
  · exact ⟨by rw [h]; exact hc, ha, Or.inl h⟩
  · rw [hc] at ho; cases ho
  · exact ⟨by rw [h]; exact hc, ha, Or.inr ⟨a, rest, hq, h⟩⟩
  · refine ⟨by rw [h], ha, Or.inl ?_⟩
    rw [h, ← hc]

/-- Along any run from a closed state the queue stays closed, accepts
nothing, and its deque is a suffix of the one it started with. -/
theorem run_of_closed (q : MPMCQueue T) (ops : List (Op T)) (hc : q.m_closed = true) :
    (q.run ops).m_closed = true ∧ q.accepted_by ops = [] ∧
    (q.run ops).m_queue <:+ q.m_queue := by
  induction ops generalizing q with
  | nil => exact ⟨hc, rfl, List.suffix_refl _⟩
  | cons op ops ih =>
    obtain ⟨hc2, ha, hs⟩ := step_of_closed q op hc
    obtain ⟨h1, h2, h3⟩ := ih (q.step op) hc2
    refine ⟨h1, ?_, ?_⟩
    · simp only [accepted_by, log, reduceOption_cons_toList, ha] at h2 ⊢
      simpa using h2
    · refine h3.trans ?_
      rcases hs with hs | ⟨a, rest, hq, hs⟩
      · rw [hs]
      · rw [hs, hq]; exact List.suffix_cons a rest

/-- As many `try_pop` calls as the deque holds elements all return
`true`. -/
theorem log_returned_try_pop (es outs : List T) (q : MPMCQueue T) (hq : q.m_queue = es)
    (hlen : outs.length = es.length) :
    log returned q (outs.map Op.try_pop) = List.replicate es.length (some true) := by
  induction outs generalizing q es with
  | nil =>
    have : es = [] := List.length_eq_zero.mp hlen.symm
    subst this
    simp [log]
  | cons out outs ih =>
    cases es with
    | nil => simp at hlen
    | cons e es =>
      have h := ih es (q.step (Op.try_pop out))
        (by simp [step, try_pop_cons q out e es hq]) (by simpa using hlen)
      simp only [List.map_cons, log, h, returned, try_pop_cons q out e es hq,
        List.length_cons, List.replicate_succ]

/-! ## Invariants of the reachable states -/

/-- C1 (capacity invariant): in every state reachable from a freshly
constructed queue of the given capacity by a finite sequence of steps,
the deque holds at least 0 and at most `capacity` elements. -/
theorem capacity_invariant (capacity : Nat) (ops : List (Op T)) :
    0 ≤ ((new capacity : MPMCQueue T).run ops).m_queue.length ∧
    ((new capacity : MPMCQueue T).run ops).m_queue.length ≤ capacity := by
  refine ⟨Nat.zero_le _, ?_⟩
  exact run_length_le (new capacity) ops (Nat.zero_le _)

/-- C2 (no loss, duplication or reordering): after any finite sequence of
steps on a freshly constructed queue, the elements handed out by the
successful removals, followed by the deque contents, are the elements
accepted by the successful insertions, in the same order.  Hence, when no
step is a `close` and there were as many successful removals as
successful insertions, the removed elements are the inserted ones as
multisets (each retrieved exactly once) and nothing is left in the deque. -/
theorem no_loss_no_duplication (capacity : Nat) (ops : List (Op T)) :
    (new capacity : MPMCQueue T).handed_by ops ++ ((new capacity : MPMCQueue T).run ops).m_queue
      = (new capacity : MPMCQueue T).accepted_by ops ∧
    (Op.close ∉ ops →
      ((new capacity : MPMCQueue T).handed_by ops).length
        = ((new capacity : MPMCQueue T).accepted_by ops).length →
      (((new capacity : MPMCQueue T).handed_by ops : List T) : Multiset T)
        = (((new capacity : MPMCQueue T).accepted_by ops : List T) : Multiset T) ∧
      ((new capacity : MPMCQueue T).run ops).m_queue = []) := by
  have h := run_conservation (new capacity : MPMCQueue T) ops
  simp only [new, List.nil_append] at h ⊢
  refine ⟨h, fun _ hlen => ?_⟩
  have hnil : (run { m_closed := false, m_MaxCapacity := capacity, m_queue := ([] : List T) }
      ops).m_queue = [] := by
    have hl := congrArg List.length h
    rw [List.length_append, hlen] at hl
    exact List.length_eq_zero.mp (by omega)
  rw [hnil, List.append_nil] at h
  exact ⟨by rw [h], hnil⟩

/-- C2 at a concrete run: capacity 2, two insertions and two removals. -/
theorem no_loss_no_duplication_witness :
    (((new 2 : MPMCQueue Nat).handed_by
        [Op.push 7, Op.try_push 8, Op.pop 0, Op.try_pop 0] : List Nat) : Multiset Nat)
      = (((new 2 : MPMCQueue Nat).accepted_by
        [Op.push 7, Op.try_push 8, Op.pop 0, Op.try_pop 0] : List Nat) : Multiset Nat) ∧
    ((new 2 : MPMCQueue Nat).run [Op.push 7, Op.try_push 8, Op.pop 0, Op.try_pop 0]).m_queue
      = [] :=
  (no_loss_no_duplication 2 [Op.push 7, Op.try_push 8, Op.pop 0, Op.try_pop 0]).2
    (by decide) (by decide)

/-! ## Contracts of the single operations -/

/-- C4 (try_push contract): for every state and element, both overloads
of `try_push` return `true` exactly when the queue is open and holds fewer
than `m_MaxCapacity` elements; on `true` the argument is appended at the
tail and nothing else changes; on `false` the whole state is unchanged and
the caller still holds the element. -/
theorem try_push_contract (q : MPMCQueue T) (x : T) :
    (((q.try_push x).1 = true ↔
        (q.m_closed = false ∧ q.m_queue.length < q.m_MaxCapacity)) ∧
      ((q.try_push x).1 = true →
        (q.try_push x).2.queue = { q with m_queue := q.m_queue ++ [x] }) ∧
      ((q.try_push x).1 = false →
        (q.try_push x).2.queue = q ∧ (q.try_push x).2.element = some x)) ∧
    (((q.try_push_move x).1 = true ↔
        (q.m_closed = false ∧ q.m_queue.length < q.m_MaxCapacity)) ∧
      ((q.try_push_move x).1 = true →
        (q.try_push_move x).2.queue = { q with m_queue := q.m_queue ++ [x] }) ∧
      ((q.try_push_move x).1 = false →
        (q.try_push_move x).2.queue = q ∧ (q.try_push_move x).2.element = some x)) := by
  have hcb : q.m_closed = true ∨ q.m_closed = false := by cases q.m_closed <;> simp
  rcases hcb with hc | hc
  · simp [try_push_closed q x hc, try_push_move_closed q x hc, hc]
  · rcases Nat.lt_or_ge q.m_queue.length q.m_MaxCapacity with hlt | hge
    · simp [try_push_room q x hc hlt, try_push_move_room q x hc hlt, hc, hlt]
    · simp [try_push_full q x hge, try_push_move_full q x hge, Nat.not_lt.mpr hge]

/-- C5 (try_pop contract): for every state and prior value of the output
variable, `try_pop` returns `true` exactly when the deque is non-empty; on
`true` the output variable holds the former head and the deque has lost
its head; on `false` the output variable and the state are unchanged.
The closed flag is never changed, and the result, the output and the new
deque do not depend on it. -/
theorem try_pop_contract (q : MPMCQueue T) (out : T) :
    ((q.try_pop out).1 = true ↔ q.m_queue ≠ []) ∧
    ((q.try_pop out).1 = true →
      some (q.try_pop out).2.element = q.m_queue.head? ∧
      (q.try_pop out).2.queue = { q with m_queue := q.m_queue.tail }) ∧
    ((q.try_pop out).1 = false →
      (q.try_pop out).2.element = out ∧ (q.try_pop out).2.queue = q) ∧
    (q.try_pop out).2.queue.m_closed = q.m_closed ∧
    (∀ c : Bool,
      (({ q with m_closed := c } : MPMCQueue T).try_pop out).1 = (q.try_pop out).1 ∧
      (({ q with m_closed := c } : MPMCQueue T).try_pop out).2.element
        = (q.try_pop out).2.element ∧
      (({ q with m_closed := c } : MPMCQueue T).try_pop out).2.queue.m_queue
        = (q.try_pop out).2.queue.m_queue) := by
  obtain ⟨c, cap, buf⟩ := q
  cases buf <;> simp [try_pop]

/-- C6 (blocking push contract): in every state in which the wait of
`push` resolves (queue closed, or fewer than `m_MaxCapacity` elements),
both overloads return; if the queue is closed they insert nothing and
leave the state unchanged, even when there is room; otherwise the
argument is appended at the tail and nothing else changes. -/
theorem push_contract (q : MPMCQueue T) (x : T)
    (hres : q.m_closed = true ∨ q.m_queue.length < q.m_MaxCapacity) :
    (∃ r, q.push x = some r ∧
      (q.m_closed = true → r.queue = q ∧ r.inserted = false) ∧
      (q.m_closed = false →
        r.queue = { q with m_queue := q.m_queue ++ [x] } ∧ r.inserted = true)) ∧
    (∃ r, q.push_move x = some r ∧
      (q.m_closed = true → r.queue = q ∧ r.inserted = false) ∧
      (q.m_closed = false →
        r.queue = { q with m_queue := q.m_queue ++ [x] } ∧ r.inserted = true)) := by
  have hcb : q.m_closed = true ∨ q.m_closed = false := by cases q.m_closed <;> simp
  rcases hcb with hc | hc
  · simp [push_closed q x hc, push_move_closed q x hc, hc]
  · have hlt : q.m_queue.length < q.m_MaxCapacity := by
      rcases hres with h | h
      · rw [hc] at h; cases h
      · exact h
    simp [push_room q x hc hlt, push_move_room q x hc hlt, hc]

/-- C6 on a closed queue that still has room: nothing is inserted. -/
theorem push_contract_witness :
    (∃ r, ({ m_closed := true, m_MaxCapacity := 3, m_queue := [1] } : MPMCQueue Nat).push 9
        = some r ∧
      (true = true → r.queue = { m_closed := true, m_MaxCapacity := 3, m_queue := [1] } ∧
        r.inserted = false) ∧
      (true = false →
        r.queue = { m_closed := true, m_MaxCapacity := 3, m_queue := [1] ++ [9] } ∧
        r.inserted = true)) ∧
    (∃ r, ({ m_closed := true, m_MaxCapacity := 3, m_queue := [1] } : MPMCQueue Nat).push_move 9
        = some r ∧
      (true = true → r.queue = { m_closed := true, m_MaxCapacity := 3, m_queue := [1] } ∧
        r.inserted = false) ∧
      (true = false →
        r.queue = { m_closed := true, m_MaxCapacity := 3, m_queue := [1] ++ [9] } ∧
        r.inserted = true)) :=
  push_contract { m_closed := true, m_MaxCapacity := 3, m_queue := [1] } 9 (Or.inl rfl)

/-- C7 (blocking pop contract): in every state in which the wait of `pop`
resolves (queue closed, or deque non-empty), `pop` returns; if the deque
is empty the output variable and the state are unchanged; otherwise,
open or closed, the output variable receives the head and the deque
loses it, nothing else changing. -/
theorem pop_contract (q : MPMCQueue T) (out : T)
    (hres : q.m_closed = true ∨ q.m_queue ≠ []) :
    ∃ r, q.pop out = some r ∧
      (q.m_queue = [] → r.element = out ∧ r.queue = q ∧ r.removed = false) ∧
      (∀ front rest, q.m_queue = front :: rest →
        r.element = front ∧ r.queue = { q with m_queue := rest } ∧ r.removed = true) := by
  cases hq : q.m_queue with
  | nil =>
    have hc : q.m_closed = true := by
      rcases hres with h | h
      · exact h
      · exact absurd hq h
    simp [pop_nil_closed q out hq hc]
  | cons a rest =>
    refine ⟨_, pop_cons q out a rest hq, ?_, ?_⟩
    · intro h; cases h
    · intro front rest2 h
      cases h
      simp

/-- C7 on a closed queue holding two elements: the head is handed out. -/
theorem pop_contract_witness :
    ∃ r, ({ m_closed := true, m_MaxCapacity := 2, m_queue := [4, 5] } : MPMCQueue Nat).pop 0
        = some r ∧
      (([4, 5] : List Nat) = [] → r.element = 0 ∧
        r.queue = { m_closed := true, m_MaxCapacity := 2, m_queue := [4, 5] } ∧
        r.removed = false) ∧
      (∀ front rest, ([4, 5] : List Nat) = front :: rest →
        r.element = front ∧
        r.queue = { m_closed := true, m_MaxCapacity := 2, m_queue := rest } ∧
        r.removed = true) :=
  pop_contract { m_closed := true, m_MaxCapacity := 2, m_queue := [4, 5] } 0 (Or.inl rfl)

/-- C8 (push_for contract): whenever the bounded wait of `push_for` ends
(the time has elapsed, the queue is closed, or there is room), both
overloads return, and they append the argument at the tail exactly when
the queue is open with fewer than `m_MaxCapacity` elements, changing
nothing else; in the other cases (timeout on an open full queue, or
closed queue) the whole state is unchanged. -/
theorem push_for_contract (q : MPMCQueue T) (x : T) (timed_out : Bool)
    (hend : timed_out = true ∨ q.m_closed = true ∨ q.m_queue.length < q.m_MaxCapacity) :
    (∃ r, q.push_for x timed_out = some r ∧
      (r.inserted = true ↔ (q.m_closed = false ∧ q.m_queue.length < q.m_MaxCapacity)) ∧
      (r.queue.m_queue = q.m_queue ++ [x] ↔
        (q.m_closed = false ∧ q.m_queue.length < q.m_MaxCapacity)) ∧
      ((q.m_closed = false ∧ q.m_queue.length < q.m_MaxCapacity) →
        r.queue = { q with m_queue := q.m_queue ++ [x] }) ∧
      (¬ (q.m_closed = false ∧ q.m_queue.length < q.m_MaxCapacity) → r.queue = q)) ∧
    (∃ r, q.push_for_move x timed_out = some r ∧
      (r.inserted = true ↔ (q.m_closed = false ∧ q.m_queue.length < q.m_MaxCapacity)) ∧
      (r.queue.m_queue = q.m_queue ++ [x] ↔
        (q.m_closed = false ∧ q.m_queue.length < q.m_MaxCapacity)) ∧
      ((q.m_closed = false ∧ q.m_queue.length < q.m_MaxCapacity) →
        r.queue = { q with m_queue := q.m_queue ++ [x] }) ∧
      (¬ (q.m_closed = false ∧ q.m_queue.length < q.m_MaxCapacity) → r.queue = q)) := by
  have hcb : q.m_closed = true ∨ q.m_closed = false := by cases q.m_closed <;> simp
  rcases hcb with hc | hc
  · simp [push_for_closed q x timed_out hc, push_for_move_closed q x timed_out hc, hc]
  · rcases Nat.lt_or_ge q.m_queue.length q.m_MaxCapacity with hlt | hge
    · simp [push_for_room q x timed_out hc hlt, push_for_move_room q x timed_out hc hlt,
        hc, hlt]
    · have ht : timed_out = true := by
        rcases hend with h | h | h
        · exact h
        · rw [hc] at h; cases h
        · omega
      subst ht
      simp [push_for_full_timeout q x hc hge, push_for_move_full_timeout q x hc hge,
        Nat.not_lt.mpr hge]

/-- C8 on an open full queue whose wait timed out: nothing is inserted. -/
theorem push_for_contract_witness :
    ((true = true ∨ false = true ∨ [1].length < 1) ∧
      ∃ r, ({ m_closed := false, m_MaxCapacity := 1, m_queue := [1] } : MPMCQueue Nat).push_for
          9 true = some r ∧
        r.inserted = false ∧
        r.queue = { m_closed := false, m_MaxCapacity := 1, m_queue := [1] }) ∧
    ((false = true ∨ false = true ∨ [1].length < 2) ∧
      ∃ r, ({ m_closed := false, m_MaxCapacity := 2, m_queue := [1] } : MPMCQueue Nat).push_for
          9 false = some r ∧
        r.inserted = true ∧
        r.queue = { m_closed := false, m_MaxCapacity := 2, m_queue := [1, 9] }) := by
  refine ⟨⟨Or.inl rfl, ?_⟩, ⟨Or.inr (Or.inr (by decide)), ?_⟩⟩
  · obtain ⟨⟨r, hr, hi, -, -, hq⟩, -⟩ :=
      push_for_contract ({ m_closed := false, m_MaxCapacity := 1, m_queue := [1] } :
        MPMCQueue Nat) 9 true (Or.inl rfl)
    refine ⟨r, hr, ?_, hq (by decide)⟩
    cases hri : r.inserted
    · rfl
    · exact absurd (hi.mp hri) (by decide)
  · obtain ⟨⟨r, hr, hi, -, hq, -⟩, -⟩ :=
      push_for_contract ({ m_closed := false, m_MaxCapacity := 2, m_queue := [1] } :
        MPMCQueue Nat) 9 false (Or.inr (Or.inr (by decide)))
    exact ⟨r, hr, hi.mpr (by decide), hq (by decide)⟩

/-! ## Ordering and shutdown -/

/-- C3 (FIFO property): on an empty open queue, any `n` insertion calls
of elements `e1 .. en` with `n` at most the capacity all succeed, and the
`n` removals that follow (each a `pop` or a `try_pop`, with any prior
output value) all succeed and hand out `e1 .. en` in that order, leaving
the deque empty. -/
theorem fifo_property (q : MPMCQueue T) (es : List T) (ins rems : List (Op T))
    (hempty : q.m_queue = []) (hopen : q.m_closed = false)
    (hn : es.length ≤ q.m_MaxCapacity)
    (hins : ins.map Op.inserting = es.map some)
    (hrem : ∀ op ∈ rems, Op.removing op = true) (hlen : rems.length = es.length) :
    log accepted q ins = es.map some ∧
    log handed (q.run ins) rems = es.map some ∧
    ((q.run ins).run rems).m_queue = [] := by
  obtain ⟨hrun, hacc⟩ := run_of_inserting es ins q hins hopen (by rw [hempty]; simpa using hn)
  obtain ⟨hrun2, hh⟩ := run_of_removing es rems (q.run ins) hrem
    (by rw [hrun, hempty]; rfl) hlen
  exact ⟨hacc, hh, by rw [hrun2]⟩

/-- C3 on the demo run: capacity 5, `push` of 0 to 4, then five `try_pop`
calls on a variable holding -1. -/
theorem fifo_property_witness :
    log accepted (new 5 : MPMCQueue Int)
        [Op.push 0, Op.push 1, Op.push 2, Op.push 3, Op.push 4]
      = [some 0, some 1, some 2, some 3, some 4] ∧
    log handed ((new 5 : MPMCQueue Int).run
          [Op.push 0, Op.push 1, Op.push 2, Op.push 3, Op.push 4])
        [Op.try_pop (-1), Op.try_pop (-1), Op.try_pop (-1), Op.try_pop (-1), Op.try_pop (-1)]
      = [some 0, some 1, some 2, some 3, some 4] ∧
    (((new 5 : MPMCQueue Int).run
          [Op.push 0, Op.push 1, Op.push 2, Op.push 3, Op.push 4]).run
        [Op.try_pop (-1), Op.try_pop (-1), Op.try_pop (-1), Op.try_pop (-1),
          Op.try_pop (-1)]).m_queue = [] :=
  fifo_property (new 5 : MPMCQueue Int) [0, 1, 2, 3, 4]
    [Op.push 0, Op.push 1, Op.push 2, Op.push 3, Op.push 4]
    [Op.try_pop (-1), Op.try_pop (-1), Op.try_pop (-1), Op.try_pop (-1), Op.try_pop (-1)]
    rfl rfl (by decide) rfl (by decide) rfl

/-- C9 (no insertion after close): on a closed queue, whatever the call
and its arguments, the deque after the step is a suffix of the deque
before it, so its length does not grow, and no element is accepted; both
overloads of `try_push` return `false`, even when there is room; and the
same holds along every finite run from the closed state. -/
theorem no_insertion_after_close (q : MPMCQueue T) (hc : q.m_closed = true) :
    (∀ op : Op T, (q.step op).m_queue <:+ q.m_queue ∧
      (q.step op).m_queue.length ≤ q.m_queue.length ∧ q.accepted op = none) ∧
    (∀ x : T, (q.try_push x).1 = false ∧ (q.try_push_move x).1 = false) ∧
    (∀ ops : List (Op T), (q.run ops).m_queue <:+ q.m_queue ∧
      (q.run ops).m_queue.length ≤ q.m_queue.length ∧ q.accepted_by ops = []) := by
  refine ⟨fun op => ?_, fun x => ?_, fun ops => ?_⟩
  · have h := run_of_closed q [op] hc
    simp only [run] at h
    exact ⟨h.2.2, h.2.2.length_le, (step_of_closed q op hc).2.1⟩
  · simp [try_push_closed q x hc, try_push_move_closed q x hc]
  · have h := run_of_closed q ops hc
    exact ⟨h.2.2, h.2.2.length_le, h.2.1⟩

/-- C9 on a closed queue with room for two more elements. -/
theorem no_insertion_after_close_witness :
    (∀ op : Op Nat,
      (({ m_closed := true, m_MaxCapacity := 3, m_queue := [1] } : MPMCQueue Nat).step
          op).m_queue <:+ [1] ∧
      (({ m_closed := true, m_MaxCapacity := 3, m_queue := [1] } : MPMCQueue Nat).step
          op).m_queue.length ≤ 1 ∧
      ({ m_closed := true, m_MaxCapacity := 3, m_queue := [1] } : MPMCQueue Nat).accepted op
        = none) ∧
    (∀ x : Nat,
      (({ m_closed := true, m_MaxCapacity := 3, m_queue := [1] } : MPMCQueue Nat).try_push
          x).1 = false ∧
      (({ m_closed := true, m_MaxCapacity := 3, m_queue := [1] } : MPMCQueue Nat).try_push_move
          x).1 = false) ∧
    (∀ ops : List (Op Nat),
      (({ m_closed := true, m_MaxCapacity := 3, m_queue := [1] } : MPMCQueue Nat).run
          ops).m_queue <:+ [1] ∧
      (({ m_closed := true, m_MaxCapacity := 3, m_queue := [1] } : MPMCQueue Nat).run
          ops).m_queue.length ≤ 1 ∧
      ({ m_closed := true, m_MaxCapacity := 3, m_queue := [1] } : MPMCQueue Nat).accepted_by ops
        = []) :=
  no_insertion_after_close { m_closed := true, m_MaxCapacity := 3, m_queue := [1] } rfl

/-- C10 (drain after close): if the deque holds `k` elements when `close`
is called, the next `k` calls of `try_pop` (with any prior output values)
all return `true` and hand out those elements in deque order, and the
call after them returns `false` and hands out nothing. -/
theorem drain_after_close (q : MPMCQueue T) (outs : List T) (last : T)
    (hk : outs.length = q.m_queue.length) :
    log returned q.close.queue (outs.map Op.try_pop ++ [Op.try_pop last])
      = List.replicate q.m_queue.length (some true) ++ [some false] ∧
    log handed q.close.queue (outs.map Op.try_pop ++ [Op.try_pop last])
      = q.m_queue.map some ++ [none] := by
  have hq : q.close.queue.m_queue = q.m_queue := rfl
  have hrem : ∀ op ∈ outs.map Op.try_pop, Op.removing op = true := by
    intro op hop
    obtain ⟨o, -, rfl⟩ := List.mem_map.mp hop
    rfl
  obtain ⟨hrun, hh⟩ := run_of_removing q.m_queue (outs.map Op.try_pop) q.close.queue hrem hq
    (by simpa using hk)
  have hret := log_returned_try_pop q.m_queue outs q.close.queue hq hk
  rw [log_append, log_append, hret, hh, hrun]
  simp [log, returned, handed, try_pop]

/-- C10 on the run of the specification: capacity 5, three pushes,
`close`, then four `try_pop` calls. -/
theorem drain_after_close_witness :
    log returned ((new 5 : MPMCQueue Nat).run [Op.push 1, Op.push 2, Op.push 3]).close.queue
        [Op.try_pop 0, Op.try_pop 0, Op.try_pop 0, Op.try_pop 0]
      = [some true, some true, some true, some false] ∧
    log handed ((new 5 : MPMCQueue Nat).run [Op.push 1, Op.push 2, Op.push 3]).close.queue
        [Op.try_pop 0, Op.try_pop 0, Op.try_pop 0, Op.try_pop 0]
      = [some 1, some 2, some 3, none] :=
  drain_after_close ((new 5 : MPMCQueue Nat).run [Op.push 1, Op.push 2, Op.push 3])
    [0, 0, 0] 0 rfl

/-! ## The lifecycle flag -/

/-- A returning insertion leaves the closed flag as it was. -/
theorem after_push_flag (q : MPMCQueue T) (o : Option (PushOutcome T))
    (h : ∀ r, o = some r → r.queue.m_closed = q.m_closed) :
    (q.after_push o).m_closed = q.m_closed := by
  cases o with
  | none => rfl
  | some r => exact h r rfl

/-- Only `close` changes the closed flag. -/
theorem step_flag (q : MPMCQueue T) (op : Op T) (hop : op ≠ Op.close) :
    (q.step op).m_closed = q.m_closed := by
  cases op with
  | push x =>
    refine after_push_flag q _ (fun r h => ?_)
    simp only [push] at h
    split_ifs at h <;> cases h <;> rfl
  | push_move x =>
    refine after_push_flag q _ (fun r h => ?_)
    simp only [push_move] at h
    split_ifs at h <;> cases h <;> rfl
  | push_for x t =>
    refine after_push_flag q _ (fun r h => ?_)
    simp only [push_for] at h
    split_ifs at h <;> cases h <;> rfl
  | push_for_move x t =>
    refine after_push_flag q _ (fun r h => ?_)
    simp only [push_for_move] at h
    split_ifs at h <;> cases h <;> rfl
  | try_push x =>
    simp only [step, try_push]
    split_ifs <;> rfl
  | try_push_move x =>
    simp only [step, try_push_move]
    split_ifs <;> rfl
  | pop out =>
    cases hq : q.m_queue with
    | nil =>
      cases hc : q.m_closed
      · simp [step, after_pop, pop_nil_open q out hq hc, hc]
      · simp [step, after_pop, pop_nil_closed q out hq hc, hc]
    | cons a rest => simp [step, after_pop, pop_cons q out a rest hq]
  | try_pop out =>
    cases hq : q.m_queue with
    | nil => simp [step, try_pop_nil q out hq]
    | cons a rest => simp [step, try_pop_cons q out a rest hq]
  | close => exact absurd rfl hop

/-- No call suspends on a closed queue. -/
theorem suspends_of_closed (q : MPMCQueue T) (op : Op T) (hc : q.m_closed = true) :
    q.suspends op = false := by
  cases op with
  | push x => simp [suspends, push_closed q x hc]
  | push_move x => simp [suspends, push_move_closed q x hc]
  | push_for x t => simp [suspends, push_for_closed q x t hc]
  | push_for_move x t => simp [suspends, push_for_move_closed q x t hc]
  | pop out =>
    cases hq : q.m_queue with
    | nil => simp [suspends, pop_nil_closed q out hq hc]
    | cons a rest => simp [suspends, pop_cons q out a rest hq]
  | try_push x => rfl
  | try_push_move x => rfl
  | try_pop out => rfl
  | close => rfl

/-- C11 (close does not clear the deque): for every state, after `close`
the queue is closed, and the deque (elements and order) and the capacity
are what they were before the call. -/
theorem close_keeps_buffer (q : MPMCQueue T) :
    q.close.queue.m_closed = true ∧
    q.close.queue.m_queue = q.m_queue ∧
    q.close.queue.m_MaxCapacity = q.m_MaxCapacity :=
  ⟨rfl, rfl, rfl⟩

/-- C12 (the lifecycle flag is irreversible and changes only through
`close`): a freshly constructed queue is open; a step of `push`,
`push_for`, `try_push`, `pop` or `try_pop` (any overload, any arguments)
leaves the flag as it was; and from a closed state every step, `close`
included, and every finite run lead to a closed state. -/
theorem flag_changes_only_by_close (capacity : Nat) (q : MPMCQueue T) :
    (new capacity : MPMCQueue T).m_closed = false ∧
    (∀ op : Op T, op ≠ Op.close → (q.step op).m_closed = q.m_closed) ∧
    (q.m_closed = true → ∀ op : Op T, (q.step op).m_closed = true) ∧
    (q.m_closed = true → ∀ ops : List (Op T), (q.run ops).m_closed = true) := by
  refine ⟨rfl, fun op hop => step_flag q op hop, fun hc op => ?_, fun hc ops => ?_⟩
  · exact (step_of_closed q op hc).1
  · exact (run_of_closed q ops hc).1

/-- C12 at a closed queue holding one element: pushes, pops and a further
`close` leave it closed. -/
theorem flag_changes_only_by_close_witness :
    (({ m_closed := true, m_MaxCapacity := 2, m_queue := [3] } : MPMCQueue Nat).run
      [Op.push 1, Op.try_push 2, Op.pop 0, Op.close, Op.try_pop 0]).m_closed = true :=
  (flag_changes_only_by_close 2
    ({ m_closed := true, m_MaxCapacity := 2, m_queue := [3] } : MPMCQueue Nat)).2.2.2 rfl
    [Op.push 1, Op.try_push 2, Op.pop 0, Op.close, Op.try_pop 0]

/-- C13 (close is idempotent): for every state, `close` after `close`
gives exactly what the first `close` gave, and `close` on a closed queue
leaves deque, flag and capacity unchanged. -/
theorem close_idempotent (q : MPMCQueue T) :
    q.close.queue.close = q.close ∧
    (q.m_closed = true → q.close.queue = q) := by
  refine ⟨rfl, fun hc => ?_⟩
  obtain ⟨c, cap, buf⟩ := q
  simp only at hc
  subst hc
  rfl

/-- C13 at a closed queue holding two elements. -/
theorem close_idempotent_witness :
    ({ m_closed := true, m_MaxCapacity := 2, m_queue := [4, 5] } : MPMCQueue Nat).close.queue
      = { m_closed := true, m_MaxCapacity := 2, m_queue := [4, 5] } :=
  (close_idempotent ({ m_closed := true, m_MaxCapacity := 2, m_queue := [4, 5] } :
    MPMCQueue Nat)).2 rfl

/-! ## Waiting -/

/-- C14 (wait predicates): `push` (both overloads), and `push_for` while
its time has not elapsed, suspend the caller exactly when the queue is
open and holds at least `m_MaxCapacity` elements; `push_for` whose time
has elapsed never suspends; `pop` suspends exactly when the queue is open
and the deque is empty.  Hence on a closed queue no call suspends: `push`
and `push_for` return without inserting, and `pop` returns with the head
if the deque is non-empty and with its output variable untouched if it is
empty. -/
theorem wait_predicates (q : MPMCQueue T) (x out : T) :
    ((q.push x = none ↔ (q.m_closed = false ∧ q.m_MaxCapacity ≤ q.m_queue.length)) ∧
      (q.push_move x = none ↔ (q.m_closed = false ∧ q.m_MaxCapacity ≤ q.m_queue.length)) ∧
      (q.push_for x false = none ↔
        (q.m_closed = false ∧ q.m_MaxCapacity ≤ q.m_queue.length)) ∧
      (q.push_for_move x false = none ↔
        (q.m_closed = false ∧ q.m_MaxCapacity ≤ q.m_queue.length)) ∧
      q.push_for x true ≠ none ∧ q.push_for_move x true ≠ none ∧
      (q.pop out = none ↔ (q.m_closed = false ∧ q.m_queue = []))) ∧
    (q.m_closed = true →
      (∀ op : Op T, q.suspends op = false) ∧
      (∀ timed_out : Bool,
        q.push x = some { queue := q, element := some x, inserted := false,
                          wake_not_empty := Wake.nobody } ∧
        q.push_move x = some { queue := q, element := some x, inserted := false,
                               wake_not_empty := Wake.nobody } ∧
        q.push_for x timed_out = some { queue := q, element := some x, inserted := false,
                                        wake_not_empty := Wake.nobody } ∧
        q.push_for_move x timed_out = some { queue := q, element := some x,
                                             inserted := false,
                                             wake_not_empty := Wake.nobody }) ∧
      (q.m_queue = [] →
        q.pop out = some { queue := q, element := out, removed := false,
                           wake_not_full := Wake.nobody }) ∧
      (∀ front rest, q.m_queue = front :: rest →
        q.pop out = some { queue := { q with m_queue := rest }, element := front,
                           removed := true, wake_not_full := Wake.one })) := by
  constructor
  · have hcb : q.m_closed = true ∨ q.m_closed = false := by cases q.m_closed <;> simp
    have hpop : q.pop out = none ↔ (q.m_closed = false ∧ q.m_queue = []) := by
      cases hq : q.m_queue with
      | nil =>
        rcases hcb with hc | hc
        · simp [pop_nil_closed q out hq hc, hc]
        · simp [pop_nil_open q out hq hc, hc]
      | cons a rest => simp [pop_cons q out a rest hq]
    rcases hcb with hc | hc
    · simp [push_closed q x hc, push_move_closed q x hc, push_for_closed q x _ hc,
        push_for_move_closed q x _ hc, hc, hpop]
    · rcases Nat.lt_or_ge q.m_queue.length q.m_MaxCapacity with hlt | hge
      · simp [push_room q x hc hlt, push_move_room q x hc hlt, push_for_room q x _ hc hlt,
          push_for_move_room q x _ hc hlt, hc, Nat.not_le.mpr hlt, hpop]
      · simp [push_full q x hc hge, push_move_full q x hc hge,
          push_for_full_waiting q x hc hge, push_for_move_full_waiting q x hc hge,
          push_for_full_timeout q x hc hge, push_for_move_full_timeout q x hc hge,
          hc, hge, hpop]
  · intro hc
    refine ⟨fun op => suspends_of_closed q op hc, fun t => ?_, fun hq => ?_,
      fun front rest hq => ?_⟩
    · exact ⟨push_closed q x hc, push_move_closed q x hc, push_for_closed q x t hc,
        push_for_move_closed q x t hc⟩
    · exact pop_nil_closed q out hq hc
    · exact pop_cons q out front rest hq

/-- C14 at a closed full queue: nothing suspends. -/
theorem wait_predicates_witness :
    (∀ op : Op Nat,
      ({ m_closed := true, m_MaxCapacity := 1, m_queue := [6] } : MPMCQueue Nat).suspends op
        = false) ∧
    ({ m_closed := true, m_MaxCapacity := 1, m_queue := [6] } : MPMCQueue Nat).pop 0
      = some { queue := { m_closed := true, m_MaxCapacity := 1, m_queue := [] },
               element := 6, removed := true, wake_not_full := Wake.one } :=
  ⟨(wait_predicates ({ m_closed := true, m_MaxCapacity := 1, m_queue := [6] } : MPMCQueue Nat)
      9 0).2 rfl |>.1,
   (wait_predicates ({ m_closed := true, m_MaxCapacity := 1, m_queue := [6] } : MPMCQueue Nat)
      9 0).2 rfl |>.2.2.2 6 [] rfl⟩

/-! ## Overloads -/

/-- C15 (copy and move insertion queue alike): for every state and
element, the copy and the move overload of `push` suspend in the same
states and otherwise leave the same queue state; so do the two overloads
of `push_for` for the same wait outcome; the two overloads of `try_push`
return the same boolean and leave the same queue state.  They also agree
on whether an element was inserted and on the notification sent. -/
theorem copy_move_same_queueing (q : MPMCQueue T) (x : T) (timed_out : Bool) :
    ((q.push x).map PushOutcome.queue = (q.push_move x).map PushOutcome.queue ∧
      (q.push x).map PushOutcome.inserted = (q.push_move x).map PushOutcome.inserted ∧
      (q.push x).map PushOutcome.wake_not_empty
        = (q.push_move x).map PushOutcome.wake_not_empty) ∧
    ((q.push_for x timed_out).map PushOutcome.queue
        = (q.push_for_move x timed_out).map PushOutcome.queue ∧
      (q.push_for x timed_out).map PushOutcome.inserted
        = (q.push_for_move x timed_out).map PushOutcome.inserted ∧
      (q.push_for x timed_out).map PushOutcome.wake_not_empty
        = (q.push_for_move x timed_out).map PushOutcome.wake_not_empty) ∧
    ((q.try_push x).1 = (q.try_push_move x).1 ∧
      (q.try_push x).2.queue = (q.try_push_move x).2.queue ∧
      (q.try_push x).2.inserted = (q.try_push_move x).2.inserted ∧
      (q.try_push x).2.wake_not_empty = (q.try_push_move x).2.wake_not_empty) := by
  have hcb : q.m_closed = true ∨ q.m_closed = false := by cases q.m_closed <;> simp
  rcases hcb with hc | hc
  · simp [push_closed q x hc, push_move_closed q x hc, push_for_closed q x _ hc,
      push_for_move_closed q x _ hc, try_push_closed q x hc, try_push_move_closed q x hc]
  · rcases Nat.lt_or_ge q.m_queue.length q.m_MaxCapacity with hlt | hge
    · simp [push_room q x hc hlt, push_move_room q x hc hlt, push_for_room q x _ hc hlt,
        push_for_move_room q x _ hc hlt, try_push_room q x hc hlt,
        try_push_move_room q x hc hlt]
    · cases timed_out <;>
        simp [push_full q x hc hge, push_move_full q x hc hge,
          push_for_full_waiting q x hc hge, push_for_move_full_waiting q x hc hge,
          push_for_full_timeout q x hc hge, push_for_move_full_timeout q x hc hge,
          try_push_full q x hge, try_push_move_full q x hge]

/-! ## Capacity -/

/-- A step on a queue holding at least `m_MaxCapacity` elements accepts
nothing. -/
theorem accepted_of_full (q : MPMCQueue T) (op : Op T)
    (hfull : q.m_MaxCapacity ≤ q.m_queue.length) : q.accepted op = none := by
  rcases step_cases q op with ⟨-, ha, -⟩ | ⟨x, -, hlt, -, -, -⟩ | ⟨a, rest, -, -, ha, -⟩ |
      ⟨-, ha, -⟩
  · exact ha
  · omega
  · exact ha
  · exact ha

/-- A queue of capacity 0 with an empty deque accepts nothing along any
run, and its deque stays empty. -/
theorem run_of_zero_capacity (q : MPMCQueue T) (ops : List (Op T))
    (hcap : q.m_MaxCapacity = 0) (hq : q.m_queue = []) :
    q.accepted_by ops = [] ∧ (q.run ops).m_queue = [] ∧ (q.run ops).m_MaxCapacity = 0 := by
  induction ops generalizing q with
  | nil => exact ⟨rfl, hq, hcap⟩
  | cons op ops ih =>
    have hinv : q.m_queue.length ≤ q.m_MaxCapacity := by rw [hq]; exact Nat.zero_le _
    have hlen := step_length_le q op hinv
    rw [hcap] at hlen
    have hq2 : (q.step op).m_queue = [] := List.length_eq_zero.mp (Nat.le_zero.mp hlen)
    have hcap2 : (q.step op).m_MaxCapacity = 0 := by rw [step_capacity, hcap]
    have ha : q.accepted op = none := accepted_of_full q op (by rw [hcap]; exact Nat.zero_le _)
    obtain ⟨h1, h2, h3⟩ := ih (q.step op) hcap2 hq2
    refine ⟨?_, h2, h3⟩
    simp only [accepted_by, log, reduceOption_cons_toList, ha] at h1 ⊢
    simpa using h1

/-- C16 (zero capacity): in every state reachable from a queue
constructed with capacity 0 the deque is empty and no element was ever
accepted; there, no call of any kind inserts, both overloads of
`try_push` return `false`, `push` returns only if the queue is closed and
`push_for` only if the queue is closed or its time has elapsed, and
`try_pop` returns `false`. -/
theorem zero_capacity (ops : List (Op T)) (x out : T) (timed_out : Bool) :
    ((new 0 : MPMCQueue T).run ops).m_queue = [] ∧
    (new 0 : MPMCQueue T).accepted_by ops = [] ∧
    (∀ op : Op T, ((new 0 : MPMCQueue T).run ops).accepted op = none) ∧
    (((new 0 : MPMCQueue T).run ops).try_push x).1 = false ∧
    (((new 0 : MPMCQueue T).run ops).try_push_move x).1 = false ∧
    ((((new 0 : MPMCQueue T).run ops).push x).isSome
      ↔ ((new 0 : MPMCQueue T).run ops).m_closed = true) ∧
    ((((new 0 : MPMCQueue T).run ops).push_move x).isSome
      ↔ ((new 0 : MPMCQueue T).run ops).m_closed = true) ∧
    ((((new 0 : MPMCQueue T).run ops).push_for x timed_out).isSome
      ↔ (((new 0 : MPMCQueue T).run ops).m_closed = true ∨ timed_out = true)) ∧
    ((((new 0 : MPMCQueue T).run ops).push_for_move x timed_out).isSome
      ↔ (((new 0 : MPMCQueue T).run ops).m_closed = true ∨ timed_out = true)) ∧
    (((new 0 : MPMCQueue T).run ops).try_pop out).1 = false := by
  obtain ⟨hacc, hq, hcap⟩ := run_of_zero_capacity (new 0 : MPMCQueue T) ops rfl rfl
  generalize (new 0 : MPMCQueue T).run ops = q at hq hcap
  have hge : q.m_MaxCapacity ≤ q.m_queue.length := by rw [hcap]; exact Nat.zero_le _
  refine ⟨hq, hacc, fun op => accepted_of_full q op hge, ?_, ?_, ?_, ?_, ?_, ?_, ?_⟩
  · rw [try_push_full q x hge]
  · rw [try_push_move_full q x hge]
  · cases hc : q.m_closed
    · simp [push_full q x hc hge]
    · simp [push_closed q x hc]
  · cases hc : q.m_closed
    · simp [push_move_full q x hc hge]
    · simp [push_move_closed q x hc]
  · cases hc : q.m_closed
    · cases timed_out
      · simp [push_for_full_waiting q x hc hge]
      · simp [push_for_full_timeout q x hc hge]
    · simp [push_for_closed q x timed_out hc]
  · cases hc : q.m_closed
    · cases timed_out
      · simp [push_for_move_full_waiting q x hc hge]
      · simp [push_for_move_full_timeout q x hc hge]
    · simp [push_for_move_closed q x timed_out hc]
  · rw [try_pop_nil q out hq]

/-- C17 (capacity accessor stability): for every constructor argument
and every finite sequence of steps on the constructed queue,
`getMaxCapacity` returns the constructor argument; no step changes the
capacity of any queue. -/
theorem capacity_accessor_stable (capacity : Nat) (ops : List (Op T)) :
    (new capacity : MPMCQueue T).getMaxCapacity = capacity ∧
    ((new capacity : MPMCQueue T).run ops).getMaxCapacity = capacity ∧
    (∀ (q : MPMCQueue T) (op : Op T), (q.step op).getMaxCapacity = q.getMaxCapacity) := by
  refine ⟨rfl, ?_, fun q op => step_capacity q op⟩
  exact run_capacity (new capacity) ops

/-! ## Notifications -/

/-- A call that suspends on a non-empty deque is an insertion. -/
theorem inserting_of_suspends (q : MPMCQueue T) (op : Op T) (hq : q.m_queue ≠ [])
    (hs : q.suspends op = true) : op.inserting.isSome = true := by
  cases op with
  | pop out =>
    cases hb : q.m_queue with
    | nil => exact absurd hb hq
    | cons a rest => simp [suspends, pop_cons q out a rest hb] at hs
  | push x => rfl
  | push_move x => rfl
  | push_for x t => rfl
  | push_for_move x t => rfl
  | try_push x => rfl
  | try_push_move x => rfl
  | try_pop out => simp [suspends] at hs
  | close => simp [suspends] at hs

/-- An insertion on a closed queue returns and leaves the state as it is. -/
theorem step_closed_of_inserting (q : MPMCQueue T) (op : Op T) (hc : q.m_closed = true)
    (hop : op.inserting.isSome = true) : q.step op = q := by
  cases op with
  | push x => simp [step, after_push, push_closed q x hc]
  | push_move x => simp [step, after_push, push_move_closed q x hc]
  | push_for x t => simp [step, after_push, push_for_closed q x t hc]
  | push_for_move x t => simp [step, after_push, push_for_move_closed q x t hc]
  | try_push x => simp [step, try_push_closed q x hc]
  | try_push_move x => simp [step, try_push_move_closed q x hc]
  | pop out => simp [Op.inserting] at hop
  | try_pop out => simp [Op.inserting] at hop
  | close => simp [Op.inserting] at hop

/-- Insertions re-evaluated on a closed queue, in any order: none
suspends, none is accepted, and the state is left as it is. -/
theorem run_closed_of_inserting (q : MPMCQueue T) (calls : List (Op T))
    (hc : q.m_closed = true) (hcalls : ∀ op ∈ calls, op.inserting.isSome = true) :
    log suspends q calls = List.replicate calls.length false ∧
    log accepted q calls = List.replicate calls.length none ∧
    q.run calls = q := by
  induction calls with
  | nil => exact ⟨rfl, rfl, rfl⟩
  | cons op calls ih =>
    have hstep := step_closed_of_inserting q op hc (hcalls op (List.mem_cons_self _ _))
    obtain ⟨h1, h2, h3⟩ := ih (fun o ho => hcalls o (List.mem_cons_of_mem _ ho))
    simp only [log, run, hstep, h1, h2, h3, suspends_of_closed q op hc,
      (step_of_closed q op hc).2.1, List.length_cons, List.replicate_succ, and_self]

/-- C18 (close wakes all waiters): on an open queue of capacity 1 holding
one element every `push` suspends; if any number of calls are suspended
there when `close` is called, `close` releases all of them, each of them
then returns without inserting, whatever the order in which they run
again, and the deque still holds exactly the original element.  In
general, on every queue `close` releases all the threads blocked on
either condition variable, and after it no call suspends. -/
theorem close_wakes_all_waiters (q : MPMCQueue T) (e : T) (calls : List (Op T))
    (hcap : q.m_MaxCapacity = 1) (hfull : q.m_queue = [e]) (hopen : q.m_closed = false)
    (hblocked : ∀ op ∈ calls, q.suspends op = true) :
    (∀ x : T, q.suspends (Op.push x) = true ∧ q.suspends (Op.push_move x) = true) ∧
    q.close.wake_not_full.wakes calls.length = calls.length ∧
    log suspends q.close.queue calls = List.replicate calls.length false ∧
    log accepted q.close.queue calls = List.replicate calls.length none ∧
    (q.close.queue.run calls).m_queue = [e] ∧
    (∀ (s : MPMCQueue T) (waiting : Nat),
      s.close.wake_not_full.wakes waiting = waiting ∧
      s.close.wake_not_empty.wakes waiting = waiting ∧
      ∀ op : Op T, s.close.queue.suspends op = false) := by
  have hge : q.m_MaxCapacity ≤ q.m_queue.length := by rw [hcap, hfull]; exact Nat.le_refl _
  have hne : q.m_queue ≠ [] := by rw [hfull]; exact List.cons_ne_nil _ _
  obtain ⟨h1, h2, h3⟩ := run_closed_of_inserting q.close.queue calls rfl
    (fun op hop => inserting_of_suspends q op hne (hblocked op hop))
  refine ⟨fun x => ?_, rfl, h1, h2, ?_, fun s waiting => ⟨rfl, rfl, fun op => ?_⟩⟩
  · simp [suspends, push_full q x hopen hge, push_move_full q x hopen hge]
  · rw [h3]; exact hfull
  · exact suspends_of_closed s.close.queue op rfl

/-- C18 with three threads blocked in `push` on a full queue of
capacity 1. -/
theorem close_wakes_all_waiters_witness :
    Wake.wakes ({ m_closed := false, m_MaxCapacity := 1, m_queue := [7] } :
        MPMCQueue Nat).close.wake_not_full 3 = 3 ∧
    log suspends ({ m_closed := false, m_MaxCapacity := 1, m_queue := [7] } :
        MPMCQueue Nat).close.queue [Op.push 1, Op.push_move 2, Op.push 3]
      = [false, false, false] ∧
    (({ m_closed := false, m_MaxCapacity := 1, m_queue := [7] } :
        MPMCQueue Nat).close.queue.run [Op.push 1, Op.push_move 2, Op.push 3]).m_queue = [7] :=
  have h := close_wakes_all_waiters
    ({ m_closed := false, m_MaxCapacity := 1, m_queue := [7] } : MPMCQueue Nat) 7
    [Op.push 1, Op.push_move 2, Op.push 3] rfl rfl rfl (by decide)
  ⟨h.2.1, h.2.2.1, h.2.2.2.2.1⟩

/-- C19 (every successful insertion wakes a waiting remover, every
successful removal a waiting inserter), evaluated on the code.  On a new
queue of capacity 1 a `pop` is suspended; `try_push 7` then returns `true`
and leaves the deque `[7]`, yet notifies nobody, so the one thread blocked
on `m_cv_not_empty` is not released, whereas `push 7` in the same state
releases it.  Likewise on the full queue `[7]` a `push` is suspended;
`try_pop` returns `true` and empties the deque, yet notifies nobody on
`m_cv_not_full`, whereas `pop` releases one thread. -/
theorem try_calls_wake_nobody :
    ((new 1 : MPMCQueue Nat).suspends (Op.pop 0) = true ∧
      ((new 1 : MPMCQueue Nat).try_push 7).1 = true ∧
      ((new 1 : MPMCQueue Nat).try_push 7).2.queue.m_queue = [7] ∧
      ((new 1 : MPMCQueue Nat).try_push 7).2.wake_not_empty.wakes 1 = 0 ∧
      ((new 1 : MPMCQueue Nat).try_push_move 7).2.wake_not_empty.wakes 1 = 0 ∧
      ((new 1 : MPMCQueue Nat).push 7).map (fun r => r.wake_not_empty.wakes 1) = some 1) ∧
    (({ m_closed := false, m_MaxCapacity := 1, m_queue := [7] } : MPMCQueue Nat).suspends
        (Op.push 8) = true ∧
      (({ m_closed := false, m_MaxCapacity := 1, m_queue := [7] } : MPMCQueue Nat).try_pop
        0).1 = true ∧
      (({ m_closed := false, m_MaxCapacity := 1, m_queue := [7] } : MPMCQueue Nat).try_pop
        0).2.queue.m_queue = [] ∧
      (({ m_closed := false, m_MaxCapacity := 1, m_queue := [7] } : MPMCQueue Nat).try_pop
        0).2.wake_not_full.wakes 1 = 0 ∧
      (({ m_closed := false, m_MaxCapacity := 1, m_queue := [7] } : MPMCQueue Nat).pop
        0).map (fun r => r.wake_not_full.wakes 1) = some 1) := by
  decide

/-! ## Printing -/

theorem intercalate_go_acc (fmt : T → String) (l : List T) (acc : String) :
    String.intercalate.go acc "," (l.map fmt)
      = acc ++ String.intercalate.go "" "," (l.map fmt) := by
  induction l generalizing acc with
  | nil => simp [String.intercalate.go]
  | cons b bs ih =>
    simp only [List.map_cons, String.intercalate.go]
    rw [ih (acc ++ "," ++ fmt b), ih ("" ++ "," ++ fmt b)]
    simp [String.append_assoc]

/-- The text between the brackets is the comma-joined list of printed
forms. -/
theorem comma_separated_eq_intercalate (fmt : T → String) (l : List T) :
    comma_separated fmt l = ",".intercalate (l.map fmt) := by
  cases l with
  | nil => rfl
  | cons e l =>
    simp only [List.map_cons, String.intercalate]
    induction l generalizing e with
    | nil => simp [comma_separated, String.intercalate.go]
    | cons b bs ih =>
      simp only [comma_separated, List.map_cons, String.intercalate.go]
      rw [ih b, intercalate_go_acc fmt bs (fmt e ++ "," ++ fmt b),
        intercalate_go_acc fmt bs (fmt b)]
      simp [String.append_assoc]

/-- The loop over the elements before the last, followed by the last
element, writes the comma-separated text. -/
theorem loop_then_last (fmt : T → String) (front : List T) (last : T) (o : String) :
    front.foldl (fun o e => o ++ fmt e ++ ",") o ++ fmt last
      = o ++ comma_separated fmt (front ++ [last]) := by
  induction front generalizing o with
  | nil => simp [comma_separated]
  | cons a front ih =>
    rw [List.foldl_cons, ih]
    cases hfl : front ++ [last] with
    | nil => simp at hfl
    | cons b tl =>
      simp only [List.cons_append, hfl, comma_separated, String.append_assoc]

/-- C20 (snapshot printing): for every queue, stream content and printed
form of the elements, `operator<<` appends to the stream exactly `[]` and
a newline when the deque is empty, and otherwise `[`, the printed forms
of the elements in deque order separated by single commas with no comma
after the last, `]` and a newline (so `[e]` and a newline for a single
element); the text is that of the deque as it is at the call, and the
queue is left as it was. -/
theorem snapshot_printing (fmt : T → String) (out : String) (q : MPMCQueue T) :
    (q.m_queue = [] → (operator_lshift fmt out q).out = out ++ "[]\n") ∧
    (∀ e : T, q.m_queue = [e] →
      (operator_lshift fmt out q).out = out ++ "[" ++ fmt e ++ "]\n") ∧
    (q.m_queue ≠ [] →
      (operator_lshift fmt out q).out
        = out ++ "[" ++ comma_separated fmt q.m_queue ++ "]\n") ∧
    (operator_lshift fmt out q).out
      = out ++ "[" ++ ",".intercalate (q.m_queue.map fmt) ++ "]\n" ∧
    (operator_lshift fmt out q).queue = q := by
  have hne : ∀ first rest, q.m_queue = first :: rest →
      (operator_lshift fmt out q).out
        = out ++ "[" ++ comma_separated fmt q.m_queue ++ "]\n" := by
    intro first rest hq
    have hlast := loop_then_last fmt (first :: rest).dropLast
      ((first :: rest).getLast (List.cons_ne_nil first rest)) (out ++ "[")
    rw [List.dropLast_append_getLast, List.dropLast_eq_take] at hlast
    simp only [operator_lshift, hq]
    rw [hlast]
  have hnil : q.m_queue = [] → (operator_lshift fmt out q).out = out ++ "[]\n" := by
    intro hq
    simp only [operator_lshift, hq]
  refine ⟨hnil, fun e hq => ?_, fun hq => ?_, ?_, ?_⟩
  · rw [hne e [] hq, hq]; rfl
  · cases hb : q.m_queue with
    | nil => exact absurd hb hq
    | cons first rest => rw [← hb]; exact hne first rest hb
  · cases hb : q.m_queue with
    | nil =>
      rw [hnil hb]
      simp only [List.map_nil, String.intercalate, String.append_assoc]
      rfl
    | cons first rest =>
      rw [hne first rest hb, hb, comma_separated_eq_intercalate]
  · simp only [operator_lshift]
    split <;> rfl

/-- C20 on the deques `[]`, `[4]` and `[1, 2, 3]` of natural numbers
printed in decimal, on a stream that already holds some text. -/
theorem snapshot_printing_witness :
    (operator_lshift (fun n : Nat => toString n) "Printing queue...\n"
        { m_closed := false, m_MaxCapacity := 5, m_queue := [] }).out
      = "Printing queue...\n[]\n" ∧
    (operator_lshift (fun n : Nat => toString n) "Printing queue...\n"
        { m_closed := false, m_MaxCapacity := 5, m_queue := [4] }).out
      = "Printing queue...\n[4]\n" ∧
    (operator_lshift (fun n : Nat => toString n) "Printing queue...\n"
        { m_closed := true, m_MaxCapacity := 5, m_queue := [1, 2, 3] }).out
      = "Printing queue...\n[1,2,3]\n" :=
  ⟨(snapshot_printing (fun n : Nat => toString n) "Printing queue...\n"
      { m_closed := false, m_MaxCapacity := 5, m_queue := [] }).1 rfl,
   (snapshot_printing (fun n : Nat => toString n) "Printing queue...\n"
      { m_closed := false, m_MaxCapacity := 5, m_queue := [4] }).2.1 4 rfl,
   (snapshot_printing (fun n : Nat => toString n) "Printing queue...\n"
      { m_closed := true, m_MaxCapacity := 5, m_queue := [1, 2, 3] }).2.2.1 (by decide)⟩

end MPMCQueue
